import Mathlib

/-!
Shallow embedding of the SEPIA variance-based sensitivity engine
(`sepia/SepiaSensitivity.py`) and proofs about it.

Numeric arrays are embedded over `ℚ` (the float formulas are exact rational
arithmetic once the transcendental inputs `c1`, `c3`, `C2` are taken as
parameters), except for the analytic kernel `calc1`/`calc3`, which is embedded
over `ℝ` with the standard normal pdf/cdf.  Matrices are total functions
`ℕ → ℕ → ℚ`; entries outside the active index range are irrelevant junk
(initialised to `0`, as `np.zeros` does).  Python loops that mutate an array
while advancing a counter `kk` are embedded as folds over the visited index
lists, faithful to visit order.
-/

namespace Sepia

/-- Model of `np.setxor1d(a, b)`: the sorted unique values that are in exactly
one of the two input arrays. -/
def setxor1d (a b : List ℕ) : List ℕ :=
  ((a.filter (fun x => !decide (x ∈ b))) ++ (b.filter (fun x => !decide (x ∈ a)))).dedup.insertionSort (· ≤ ·)

/-- Entry `(i, j)` of the matrix product `A @ B` with inner dimension `n`. -/
def matMul (n : ℕ) (A B : ℕ → ℕ → ℚ) : ℕ → ℕ → ℚ :=
  fun i j => ∑ k ∈ Finset.range n, A i k * B k j

/-- Model of `np.trace` of an `n × n` matrix. -/
def traceM (n : ℕ) (A : ℕ → ℕ → ℚ) : ℚ := ∑ i ∈ Finset.range n, A i i

/-- Model of `np.trace(A * B)` where `*` is the ELEMENTWISE numpy product:
only the diagonals of `A` and `B` contribute. -/
def traceElemMul (n : ℕ) (A B : ℕ → ℕ → ℚ) : ℚ := ∑ i ∈ Finset.range n, A i i * B i i

/-- Single-entry update of a matrix, modelling `Vf[i, j] = v`. -/
def mset (M : ℕ → ℕ → ℚ) (i j : ℕ) (v : ℚ) : ℕ → ℕ → ℚ :=
  fun a b => if a = i ∧ b = j then v else M a b

/-- Fold modelling a Python loop that visits entry positions `L` in order,
writing `body kk i j` at position `(i, j)` and incrementing the counter `kk`
after each write. -/
def kfold (body : ℕ → ℕ → ℕ → ℚ) (L : List (ℕ × ℕ)) (s : ℕ × (ℕ → ℕ → ℚ)) :
    ℕ × (ℕ → ℕ → ℚ) :=
  L.foldl (fun s ij => (s.1 + 1, mset s.2 ij.1 ij.2 (body s.1 ij.1 ij.2))) s

/-- The pairs visited by varf's upper-triangle loops,
`for ii in range(m-1): for jj in range(ii+1, m)`, in visit order. -/
def upperPairs (m : ℕ) : List (ℕ × ℕ) :=
  (List.range (m - 1)).flatMap
    (fun ii => (List.range' (ii + 1) (m - (ii + 1))).map (fun jj => (ii, jj)))

/-- The pairs visited by calc2's loops,
`for ii in range(m): for jj in range(ii+1, m)`, in visit order. -/
def calc2Pairs (m : ℕ) : List (ℕ × ℕ) :=
  (List.range m).flatMap
    (fun ii => (List.range' (ii + 1) (m - (ii + 1))).map (fun jj => (ii, jj)))

/-- Row of the `C2` table that belongs to the unordered pair `(i, j)`, `i < j`:
its position in the shared lexicographic visit order of the pair loops. -/
def rowOfPair (m i j : ℕ) : ℕ := @List.indexOf (ℕ × ℕ) instBEqOfDecidableEq (i, j) (upperPairs m)

/-- Row of the `C2` table that belongs to the self-pair of sample point `i`
(the pre-increment in both loops skips row `m(m-1)/2`). -/
def selfRow (m i : ℕ) : ℕ := m * (m - 1) / 2 + 1 + i

/-- Body of varf's upper-triangle write at counter `kk`, entry `(ii, jj)`
(SepiaSensitivity.py lines 397-399): start from 1, multiply by
`np.prod(C2[kk, Js])` when `Js` is nonempty, then by `ef[ii]*ef[jj]` when the
complement `ll` is nonempty. -/
def varfOffBody (Js ll : List ℕ) (C2 : ℕ → ℕ → ℚ) (ef : List ℚ) (kk ii jj : ℕ) : ℚ :=
  let v1 : ℚ := 1
  let v2 := if Js.length ≠ 0 then (Js.map (C2 kk)).prod else v1
  if ll.length ≠ 0 then v2 * ef.getD ii 0 * ef.getD jj 0 else v2

/-- Body of varf's diagonal write at counter `kk`, entry `(ii, ii)`
(lines 404-406): as `varfOffBody` but with `ef[ii]**2`. -/
def varfDiagBody (Js ll : List ℕ) (C2 : ℕ → ℕ → ℚ) (ef : List ℚ) (kk ii : ℕ) : ℚ :=
  let v1 : ℚ := 1
  let v2 := if Js.length ≠ 0 then (Js.map (C2 kk)).prod else v1
  if ll.length ≠ 0 then v2 * ef.getD ii 0 ^ 2 else v2

/-- Shallow embedding of `varf(m, p, Js, C2, ef)` (lines 391-407): counter
`kk = 0`; write the strict upper triangle in lexicographic order; symmetrise
with `Vf = Vf + Vf.T`; then write the diagonal with a PRE-incremented counter
(`kk += 1` before each use). `ef` is a list so that the empty `[]` argument of
the call sites can be passed; it is read only via `ef[i]`. -/
def varf (m p : ℕ) (Js : List ℕ) (C2 : ℕ → ℕ → ℚ) (ef : List ℚ) : ℕ → ℕ → ℚ :=
  let ll := setxor1d (List.range p) Js
  let st := kfold (varfOffBody Js ll C2 ef) (upperPairs m) (0, fun _ _ => 0)
  let Vf1 : ℕ → ℕ → ℚ := fun a b => st.2 a b + st.2 b a
  let st2 := kfold (fun kk ii _ => varfDiagBody Js ll C2 ef (kk + 1) ii)
    ((List.range m).map (fun ii => (ii, ii))) (st.1, Vf1)
  st2.2

/-- Index structure of `calc2(x, xdist, m, rg, beta, diff)` (lines 371-383):
counter `kk = 0`; one row per unordered pair `(ii, jj)` in lexicographic order,
then one row per sample point with a PRE-incremented counter.  A table entry is
`none` when the corresponding row of the allocated `np.zeros` array is never
assigned.  The row contents are abstracted as `pairVal ii jj` (which in the
source is `calc3((x[ii]+x[jj])/2, rg, 2*beta, diff) * exp(-beta*sqdist/2)`,
built with `SepiaDistCov`, a module that is not part of the sources here) and
`selfVal ii` (`calc3(x[ii], rg, 2*beta, diff)`); the claim proved about this
definition concerns only which rows are written and in which order. -/
def calc2Rows {α : Type} (m : ℕ) (pairVal : ℕ → ℕ → α) (selfVal : ℕ → α) :
    ℕ × (ℕ → Option α) :=
  let st := (calc2Pairs m).foldl
    (fun (s : ℕ × (ℕ → Option α)) ij =>
      (s.1 + 1, fun r => if r = s.1 then some (pairVal ij.1 ij.2) else s.2 r))
    (0, fun _ => none)
  (List.range m).foldl
    (fun (s : ℕ × (ℕ → Option α)) ii =>
      (s.1 + 1, fun r => if r = s.1 + 1 then some (selfVal ii) else s.2 r))
    st

/-- Per-draw total variance of one basis component (line 311):
`vt = 1/lamUz - trace(Q @ varf(m, p, arange(p), C2, []))/lamUz**2 - e2`. -/
def component_sens_vt (m p : ℕ) (Q C2 : ℕ → ℕ → ℚ) (lamUz e2 : ℚ) : ℚ :=
  1 / lamUz - traceM m (matMul m Q (varf m p (List.range p) C2 [])) / lamUz ^ 2 - e2

/-- Per-draw main-effect Sobol index for input dimension `jj` (lines 314-320),
already normalised by `vt` as in line 320. -/
def component_sens_sme (m p : ℕ) (Q : ℕ → ℕ → ℚ) (c1 : ℕ → ℚ) (c3 : ℕ → ℕ → ℚ)
    (C2 : ℕ → ℕ → ℚ) (lamUz e2 vt : ℚ) (jj : ℕ) : ℚ :=
  let Js := [jj]
  let ll := setxor1d (List.range p) Js
  let u1 : ℕ → ℚ := fun i => (ll.map (c3 i)).prod
  let u4 := (ll.map c1).prod
  (u4 / lamUz - traceM m (matMul m Q (varf m p Js C2 ((List.range m).map u1))) / lamUz ^ 2 - e2) / vt

/-- Per-draw total-effect Sobol index for input dimension `jj` (lines 324-328);
`c1[ll]` with `ll = [jj]` is the one-element array `[c1 jj]`, whose scalar
content ends up in `ste[ii, jj]`. -/
def component_sens_ste (m p : ℕ) (Q : ℕ → ℕ → ℚ) (c1 : ℕ → ℚ) (c3 : ℕ → ℕ → ℚ)
    (C2 : ℕ → ℕ → ℚ) (lamUz e2 vt : ℚ) (jj : ℕ) : ℚ :=
  let ll := [jj]
  let Js := setxor1d (List.range p) ll
  let u2 : ℕ → ℚ := fun i => (ll.map (c3 i)).prod
  let s := c1 jj / lamUz - traceM m (matMul m Q (varf m p Js C2 ((List.range m).map u2))) / lamUz ^ 2 - e2
  1 - s / vt

/-- Per-draw two-factor interaction index for the pair `pr` (lines 330-337).
Line 336 forms `np.trace(np.squeeze(Q) * varf(...))` with the ELEMENTWISE
product `*` (unlike lines 311, 319 and 327, which use the matrix product `@`),
so only the diagonals of `Q` and `varf` enter the trace. -/
def component_sens_sie (m p : ℕ) (Q : ℕ → ℕ → ℚ) (c1 : ℕ → ℚ) (c3 : ℕ → ℕ → ℚ)
    (C2 : ℕ → ℕ → ℚ) (lamUz e2 vt : ℚ) (pr : ℕ × ℕ) : ℚ :=
  let Js := [pr.1, pr.2]
  let ll := setxor1d (List.range p) Js
  let u3 : ℕ → ℚ := fun i => (ll.map (c3 i)).prod
  let u5 := (ll.map c1).prod
  let raw := u5 / lamUz - traceElemMul m Q (varf m p Js C2 ((List.range m).map u3)) / lamUz ^ 2 - e2
  raw / vt - component_sens_sme m p Q c1 c3 C2 lamUz e2 vt pr.1
    - component_sens_sme m p Q c1 c3 C2 lamUz e2 vt pr.2

/-- Modelled from the spec: the pair numerator computed "by the same rule as
the main-effect numerators", i.e. with the MATRIX product inside the trace,
as in lines 311, 319 and 327; used to compare against `component_sens_sie`. -/
def component_sens_sie_spec (m p : ℕ) (Q : ℕ → ℕ → ℚ) (c1 : ℕ → ℚ) (c3 : ℕ → ℕ → ℚ)
    (C2 : ℕ → ℕ → ℚ) (lamUz e2 vt : ℚ) (pr : ℕ × ℕ) : ℚ :=
  let Js := [pr.1, pr.2]
  let ll := setxor1d (List.range p) Js
  let u3 : ℕ → ℚ := fun i => (ll.map (c3 i)).prod
  let u5 := (ll.map c1).prod
  let raw := u5 / lamUz - traceM m (matMul m Q (varf m p Js C2 ((List.range m).map u3))) / lamUz ^ 2 - e2
  raw / vt - component_sens_sme m p Q c1 c3 C2 lamUz e2 vt pr.1
    - component_sens_sme m p Q c1 c3 C2 lamUz e2 vt pr.2

/-- Concrete `Q` matrix (symmetric, zero diagonal) used to exhibit the
difference between the elementwise and matrix-product traces. -/
def exQ : ℕ → ℕ → ℚ := fun a b => if a = b then 0 else 1

/-- Concrete all-ones `c1` vector. -/
def exc1 : ℕ → ℚ := fun _ => 1

/-- Concrete all-ones `c3` table. -/
def exc3 : ℕ → ℕ → ℚ := fun _ _ => 1

/-- Concrete all-ones `C2` table. -/
def exC2 : ℕ → ℕ → ℚ := fun _ _ => 1

/-- The three GP hyperparameter sample arrays extracted from samples_dict
(lines 45-47); each is a (draws × columns) array. -/
structure GPSamples where
  betaU : List (List ℚ)
  lamUz : List (List ℚ)
  lamWs : List (List ℚ)
deriving DecidableEq

/-- Column `k` of a 2-d array. -/
def colOf (xs : List (List ℚ)) (k : ℕ) : List ℚ := xs.map (fun row => row.getD k 0)

/-- Model of `np.mean(xs, 0, keepdims=True)`: one row of column means. -/
def npMean0 (xs : List (List ℚ)) : List (List ℚ) :=
  [(List.range (xs.headD []).length).map (fun k => (colOf xs k).sum / (xs.length : ℚ))]

/-- Model of `np.median(xs, 0, keepdims=True)`: one row of column medians
(middle of the sorted column, or the average of the two middle values). -/
def npMedian0 (xs : List (List ℚ)) : List (List ℚ) :=
  [(List.range (xs.headD []).length).map (fun k =>
    let s := (colOf xs k).insertionSort (· ≤ ·)
    let n := s.length
    if n % 2 = 1 then s.getD (n / 2) 0 else (s.getD (n / 2 - 1) 0 + s.getD (n / 2) 0) / 2)]

/-- The `option` argument of sensitivity: a string, a dict of samples, or any
other Python value (which compares unequal to every string and is not a dict). -/
inductive SensOption where
  | str (s : String)
  | dict (d : GPSamples)
  | otherVal
deriving DecidableEq

/-- The message printed by the invalid-option branch (line 87). -/
def invalidOptionMsg : String :=
  "invalid option (choose mean, median, or samples, or pass dict of values for betaU, lamUz, lamWs)"

/-- Option dispatch of sensitivity (lines 72-88).  The Python code prints the
message and returns `None` (so the caller receives no result); this fatal
early exit is modelled as `Except.error` carrying the printed message. -/
def resolveOption : SensOption → GPSamples → Except String GPSamples
  | .str s, d =>
    if s = "samples" then .ok d
    else if s = "mean" then
      .ok { betaU := npMean0 d.betaU, lamUz := npMean0 d.lamUz, lamWs := npMean0 d.lamWs }
    else if s = "median" then
      .ok { betaU := npMedian0 d.betaU, lamUz := npMedian0 d.lamUz, lamWs := npMedian0 d.lamWs }
    else .error invalidOptionMsg
  | .dict d2, _ => .ok d2
  | .otherVal, _ => .error invalidOptionMsg

/-- A Python value that is either a numpy index array or a tuple of index
arrays (the result type of one-argument `np.where`). -/
inductive PyObj where
  | array (xs : List ℕ)
  | tuple (xs : List (List ℕ))

/-- The message of the AttributeError raised by `obj.shape` on a tuple. -/
def attrErrMsg : String := "AttributeError: tuple object has no attribute shape"

/-- Model of `np.where(cond)` with a single boolean-array argument: numpy
returns a TUPLE of index arrays, one per axis, so for a 1-d condition a
1-tuple holding the indices of the True entries. -/
def npWhere (cond : List Bool) : PyObj :=
  .tuple [(List.range cond.length).filter (fun i => cond.getD i false)]

/-- Attribute access `obj.shape`: index arrays have a shape; a tuple has no
`shape` attribute, so the access raises AttributeError. -/
def pyShape : PyObj → Except String (List ℕ)
  | .array xs => .ok [xs.length]
  | .tuple _ => .error attrErrMsg

/-- The flat index list of a where-result (what `np.setxor1d` would coerce a
tuple of index arrays to). -/
def pyIndexList : PyObj → List ℕ
  | .array xs => xs
  | .tuple xs => xs.flatten

/-- Lines 50-64 of sensitivity: resolve the active input dimensions and their
ranges.  With `rg=None` the unit hypercube is used and all `nv` dimensions are
active.  With a supplied range matrix the code computes
`ii0 = np.where(rg[:, 0] == rg[:, 1])` and immediately evaluates
`ii0.shape[0]`; since the where-result is a tuple, this attribute access
raises.  The `print`-and-`return` at line 60-62 is modelled as an error too.
Returns (active index list, active ranges, active dimension count). -/
def sensitivity_activeDims (nv : ℕ) (rg0 : Option (List (ℚ × ℚ))) :
    Except String (List ℕ × List (ℚ × ℚ) × ℕ) :=
  match rg0 with
  | none =>
    let rg := List.replicate nv ((0 : ℚ), (1 : ℚ))
    if nv = 0 then .error "error:  no free variables"
    else .ok (List.range nv, rg, nv)
  | some rg => do
    let ii0 := npWhere (rg.map (fun r => decide (r.1 = r.2)))
    let sh ← pyShape ii0
    -- unreachable from here on: `pyShape` on the where-tuple raised above
    if sh.getD 0 0 > 0 then
      let idx := setxor1d (List.range nv) (pyIndexList ii0)
      let rg2 := idx.map (fun i => rg.getD i (0, 0))
      if idx.length = 0 then .error "error:  no free variables"
      else .ok (idx, rg2, idx.length)
    else
      if nv = 0 then .error "error:  no free variables"
      else .ok (List.range nv, rg, nv)

/-- The per-component arrays of `sa[jj]` consumed by the aggregation loop
(lines 118-134): per-draw total variance and per-draw, per-dimension main and
total effect indices. -/
structure CompSa where
  vt : ℕ → ℚ
  sme : ℕ → ℕ → ℚ
  ste : ℕ → ℕ → ℚ

/-- The aggregation outputs: the untouched per-component list `sa`, per-draw
aggregate variance `vt`, per-draw aggregated indices, and their posterior
means `smePm`, `stePm`. -/
structure SensAggOut where
  sa : ℕ → CompSa
  vt : ℕ → ℚ
  sme : ℕ → ℕ → ℚ
  ste : ℕ → ℕ → ℚ
  smePm : ℕ → ℚ
  stePm : ℕ → ℚ

/-- Matrix transpose (line 114 forms `ksmm = K.T`). -/
def transposeM (M : ℕ → ℕ → ℚ) : ℕ → ℕ → ℚ := fun a b => M b a

/-- The inner accumulation loop `for jj in range(pu)` of lines 125-128: running
sums of `lam[jj] * sa[jj].sme[ii,:] * sa[jj].vt[ii]`,
`lam[jj] * sa[jj].ste[ii,:] * sa[jj].vt[ii]` and `vt0 += lam[jj]*sa[jj].vt[ii]`
for one posterior draw `ii`. -/
def agg_draw (pu : ℕ) (lam : ℕ → ℚ) (sa : ℕ → CompSa) (ii : ℕ) :
    (ℕ → ℚ) × (ℕ → ℚ) × ℚ :=
  (List.range pu).foldl
    (fun (s : (ℕ → ℚ) × (ℕ → ℚ) × ℚ) jj =>
      (fun k => s.1 k + lam jj * (sa jj).sme ii k * (sa jj).vt ii,
       fun k => s.2.1 k + lam jj * (sa jj).ste ii k * (sa jj).vt ii,
       s.2.2 + lam jj * (sa jj).vt ii))
    ((fun _ => 0), (fun _ => 0), 0)

/-- Aggregation step of sensitivity (lines 114, 118-134 and the `'sa'` entry of
line 220): `ksmm = K.T`, `lam = np.diag(np.matmul(ksmm.T, ksmm))` with `nell`
the number of rows of `ksmm` (columns of `K`); for each draw `ii` accumulate
via `agg_draw`, divide the accumulated rows by `vt0`, store `vt[ii] = vt0`;
finally `smePm`/`stePm` are `np.mean(.., 0)` over draws. -/
def sensitivity_agg (pu npvec nell : ℕ) (K : ℕ → ℕ → ℚ) (sa : ℕ → CompSa) : SensAggOut :=
  let ksmm := transposeM K
  let lam : ℕ → ℚ := fun jj => matMul nell (transposeM ksmm) ksmm jj jj
  let draw : ℕ → (ℕ → ℚ) × (ℕ → ℚ) × ℚ := fun ii =>
    let st := agg_draw pu lam sa ii
    (fun k => st.1 k / st.2.2, fun k => st.2.1 k / st.2.2, st.2.2)
  { sa := sa
    vt := fun ii => (draw ii).2.2
    sme := fun ii k => (draw ii).1 k
    ste := fun ii k => (draw ii).2.1 k
    smePm := fun k => ((List.range npvec).map (fun ii => (draw ii).1 k)).sum / (npvec : ℚ)
    stePm := fun k => ((List.range npvec).map (fun ii => (draw ii).2.1 k)).sum / (npvec : ℚ) }

/-- Python truthiness of a possibly-None list (`if varlist:`). -/
def listTruthy {α : Type} : Option (List α) → Bool
  | none => false
  | some l => !l.isEmpty

/-- The dict returned by component_sens, restricted to the fields the
aggregator reads; `sie`, `jef_m`, `jef_v` are `none` when the key is absent. -/
structure CompDict where
  vt : ℕ → ℚ
  sme : ℕ → ℕ → ℚ
  ste : ℕ → ℕ → ℚ
  sie : Option (ℕ → ℕ → ℚ)
  jef_m : Option (ℕ → ℕ → ℕ → ℕ → ℚ)
  jef_v : Option (ℕ → ℕ → ℕ → ℕ → ℚ)

/-- Dict assembly at the end of component_sens (lines 351-360): the keys
`'sie'`, `'jef_m'`, `'jef_v'` are added only under `if varlist:`, i.e. only
when `varlist` is TRUTHY — for `varlist=[]` they are absent.  The computed
arrays themselves are passed in as parameters. -/
def component_sens_result (varlist : Option (List (ℕ × ℕ)))
    (vt : ℕ → ℚ) (sme ste : ℕ → ℕ → ℚ) (sieArr : ℕ → ℕ → ℚ)
    (jefm jefv : ℕ → ℕ → ℕ → ℕ → ℚ) : CompDict :=
  { vt := vt, sme := sme, ste := ste
    sie := if listTruthy varlist then some sieArr else none
    jef_m := if listTruthy varlist then some jefm else none
    jef_v := if listTruthy varlist then some jefv else none }

/-- Dict lookup `sa[jj][name]`: a missing key raises KeyError. -/
def getKey {α : Type} (o : Option α) (name : String) : Except String α :=
  match o with
  | some v => .ok v
  | none => .error ("KeyError: " ++ name)

/-- Lines 136-143 of sensitivity: the `sie` aggregation, guarded by
`if varlist is not None:`.  For every draw `ii` and component `jj` it reads
`sa[jj]['sie']`, so a component dict without the key aborts with KeyError;
with `varlist=None` the stage is skipped and no interaction output is made. -/
def sensitivity_sieStage (varlist : Option (List (ℕ × ℕ))) (npvec pu : ℕ)
    (lam : ℕ → ℚ) (sa : ℕ → CompDict) (vt : ℕ → ℚ) :
    Except String (Option (ℕ → ℕ → ℚ)) :=
  match varlist with
  | none => .ok none
  | some _ => do
    let sie ← (List.range npvec).foldlM
      (fun (sie : ℕ → ℕ → ℚ) ii => do
        let row ← (List.range pu).foldlM
          (fun (r : ℕ → ℚ) jj => do
            let sjj ← getKey (sa jj).sie "sie"
            pure (fun k => r k + lam jj * sjj ii k * (sa jj).vt ii))
          (fun _ => (0 : ℚ))
        pure (fun a b => if a = ii then row b / vt ii else sie a b))
      (fun _ _ => (0 : ℚ))
    .ok (some sie)

end Sepia

noncomputable section

namespace Sepia

/-- Model of `scipy.stats.norm.pdf`: the standard normal density. -/
def normPdf (t : ℝ) : ℝ := Real.exp (-(t ^ 2) / 2) / Real.sqrt (2 * Real.pi)

/-- Model of `scipy.stats.norm.cdf`: the standard normal distribution
function. -/
def normCdf (x : ℝ) : ℝ := ∫ t in Set.Iic x, normPdf t

/-- Shallow embedding of `calc1(beta, diff)` (lines 365-369) for one
dimension: the closed-form integral of the squared-exponential correlation
over the box, via the Gaussian CDF/PDF identity. -/
def calc1 (beta diff : ℝ) : ℝ :=
  let ncdf := normCdf (Real.sqrt (2 * beta) * diff)
  let npdf := normPdf (Real.sqrt (2 * beta) * diff)
  (Real.sqrt (Real.pi / beta) * diff * (2 * ncdf - 1) -
    1 / beta * (1 - Real.sqrt (2 * Real.pi) * npdf)) / diff ^ 2

/-- Shallow embedding of `calc3(x, rg, beta, diff)` (lines 385-389) for one
dimension with range `[lo, hi]` of width `diff`. -/
def calc3 (x lo hi beta diff : ℝ) : ℝ :=
  Real.sqrt (Real.pi / beta) *
    (normCdf (Real.sqrt (2 * beta) * (hi - x)) - normCdf (Real.sqrt (2 * beta) * (lo - x))) / diff

end Sepia

end

namespace Sepia

theorem kfold_cons (body : ℕ → ℕ → ℕ → ℚ) (x : ℕ × ℕ) (xs : List (ℕ × ℕ))
    (s : ℕ × (ℕ → ℕ → ℚ)) :
    kfold body (x :: xs) s = kfold body xs (s.1 + 1, mset s.2 x.1 x.2 (body s.1 x.1 x.2)) := rfl

theorem kfold_fst (body : ℕ → ℕ → ℕ → ℚ) :
    ∀ (L : List (ℕ × ℕ)) (s : ℕ × (ℕ → ℕ → ℚ)), (kfold body L s).1 = s.1 + L.length := by
  intro L
  induction L with
  | nil => intro s; rfl
  | cons x xs ih =>
    intro s
    rw [kfold_cons, ih]
    simp
    omega

theorem kfold_frame (body : ℕ → ℕ → ℕ → ℚ) (a b : ℕ) :
    ∀ (L : List (ℕ × ℕ)) (s : ℕ × (ℕ → ℕ → ℚ)),
      (∀ ij ∈ L, ¬(ij.1 = a ∧ ij.2 = b)) → (kfold body L s).2 a b = s.2 a b := by
  intro L
  induction L with
  | nil => intro s _; rfl
  | cons x xs ih =>
    intro s h
    rw [kfold_cons, ih _ (fun ij hij => h ij (List.mem_cons_of_mem _ hij))]
    simp only [mset]
    rw [if_neg]
    intro hc
    exact h x (List.mem_cons_self _ _) ⟨hc.1.symm, hc.2.symm⟩

theorem kfold_get (body : ℕ → ℕ → ℕ → ℚ) :
    ∀ (L : List (ℕ × ℕ)), L.Nodup → ∀ (k0 : ℕ) (M : ℕ → ℕ → ℚ) (n : ℕ) (hn : n < L.length),
      (kfold body L (k0, M)).2 (L.get ⟨n, hn⟩).1 (L.get ⟨n, hn⟩).2 =
        body (k0 + n) (L.get ⟨n, hn⟩).1 (L.get ⟨n, hn⟩).2 := by
  intro L
  induction L with
  | nil => intro _ k0 M n hn; simp at hn
  | cons x xs ih =>
    intro hnd k0 M n hn
    match n with
    | 0 =>
      simp only [List.get, kfold_cons, Nat.add_zero]
      have hx : ∀ ij ∈ xs, ¬(ij.1 = x.1 ∧ ij.2 = x.2) := by
        intro ij hij hc
        have hxx : ij = x := by
          cases ij; cases x
          simp only [Prod.mk.injEq]
          exact ⟨hc.1, hc.2⟩
        exact (List.nodup_cons.mp hnd).1 (hxx ▸ hij)
      rw [kfold_frame _ _ _ _ _ hx]
      simp [mset]
    | n + 1 =>
      simp only [List.get, kfold_cons]
      rw [show k0 + (n + 1) = k0 + 1 + n by omega]
      exact ih (List.Nodup.of_cons hnd) (k0 + 1) _ n (by simpa using Nat.lt_of_succ_lt_succ hn)

theorem rowfold_fst {α : Type} (v : ℕ → ℕ → α) :
    ∀ (L : List (ℕ × ℕ)) (s : ℕ × (ℕ → Option α)),
      (L.foldl (fun (s : ℕ × (ℕ → Option α)) ij =>
        (s.1 + 1, fun r => if r = s.1 then some (v ij.1 ij.2) else s.2 r)) s).1 =
      s.1 + L.length := by
  intro L
  induction L with
  | nil => intro s; rfl
  | cons x xs ih =>
    intro s
    rw [List.foldl_cons, ih]
    simp
    omega

theorem rowfold_frame {α : Type} (v : ℕ → ℕ → α) :
    ∀ (L : List (ℕ × ℕ)) (s : ℕ × (ℕ → Option α)) (r : ℕ),
      (r < s.1 ∨ s.1 + L.length ≤ r) →
      (L.foldl (fun (s : ℕ × (ℕ → Option α)) ij =>
        (s.1 + 1, fun r => if r = s.1 then some (v ij.1 ij.2) else s.2 r)) s).2 r =
      s.2 r := by
  intro L
  induction L with
  | nil => intro s r _; rfl
  | cons x xs ih =>
    intro s r hr
    rw [List.foldl_cons, ih]
    · simp only []
      rw [if_neg]
      simp at hr
      omega
    · simp only [List.length_cons] at hr ⊢
      omega

theorem rowfold_get {α : Type} (v : ℕ → ℕ → α) :
    ∀ (L : List (ℕ × ℕ)) (k0 : ℕ) (t0 : ℕ → Option α) (n : ℕ) (hn : n < L.length),
      (L.foldl (fun (s : ℕ × (ℕ → Option α)) ij =>
        (s.1 + 1, fun r => if r = s.1 then some (v ij.1 ij.2) else s.2 r)) (k0, t0)).2 (k0 + n) =
      some (v (L.get ⟨n, hn⟩).1 (L.get ⟨n, hn⟩).2) := by
  intro L
  induction L with
  | nil => intro k0 t0 n hn; simp at hn
  | cons x xs ih =>
    intro k0 t0 n hn
    match n with
    | 0 =>
      simp only [List.get, List.foldl_cons, Nat.add_zero]
      rw [rowfold_frame]
      · simp
      · simp only []
        omega
    | n + 1 =>
      simp only [List.get, List.foldl_cons]
      rw [show k0 + (n + 1) = k0 + 1 + n by omega]
      exact ih (k0 + 1) _ n (by simpa using Nat.lt_of_succ_lt_succ hn)

theorem selffold_fst {α : Type} (v : ℕ → α) :
    ∀ (L : List ℕ) (s : ℕ × (ℕ → Option α)),
      (L.foldl (fun (s : ℕ × (ℕ → Option α)) ii =>
        (s.1 + 1, fun r => if r = s.1 + 1 then some (v ii) else s.2 r)) s).1 =
      s.1 + L.length := by
  intro L
  induction L with
  | nil => intro s; rfl
  | cons x xs ih =>
    intro s
    rw [List.foldl_cons, ih]
    simp
    omega

theorem selffold_frame {α : Type} (v : ℕ → α) :
    ∀ (L : List ℕ) (s : ℕ × (ℕ → Option α)) (r : ℕ),
      (r ≤ s.1 ∨ s.1 + L.length + 1 ≤ r) →
      (L.foldl (fun (s : ℕ × (ℕ → Option α)) ii =>
        (s.1 + 1, fun r => if r = s.1 + 1 then some (v ii) else s.2 r)) s).2 r =
      s.2 r := by
  intro L
  induction L with
  | nil => intro s r _; rfl
  | cons x xs ih =>
    intro s r hr
    rw [List.foldl_cons, ih]
    · simp only []
      rw [if_neg]
      simp at hr
      omega
    · simp only [List.length_cons] at hr ⊢
      omega

theorem selffold_get {α : Type} (v : ℕ → α) :
    ∀ (L : List ℕ) (k0 : ℕ) (t0 : ℕ → Option α) (n : ℕ) (hn : n < L.length),
      (L.foldl (fun (s : ℕ × (ℕ → Option α)) ii =>
        (s.1 + 1, fun r => if r = s.1 + 1 then some (v ii) else s.2 r)) (k0, t0)).2 (k0 + 1 + n) =
      some (v (L.get ⟨n, hn⟩)) := by
  intro L
  induction L with
  | nil => intro k0 t0 n hn; simp at hn
  | cons x xs ih =>
    intro k0 t0 n hn
    match n with
    | 0 =>
      simp only [List.get, List.foldl_cons, Nat.add_zero]
      rw [selffold_frame]
      · simp
      · simp only []
        omega
    | n + 1 =>
      simp only [List.get, List.foldl_cons]
      rw [show k0 + 1 + (n + 1) = k0 + 1 + 1 + n by omega]
      exact ih (k0 + 1) _ n (by simpa using Nat.lt_of_succ_lt_succ hn)

end Sepia

namespace Sepia

theorem calc2Pairs_eq_upperPairs (m : ℕ) : calc2Pairs m = upperPairs m := by
  cases m with
  | zero => rfl
  | succ k =>
    simp only [calc2Pairs, upperPairs, Nat.succ_sub_one, List.range_succ, List.flatMap_append]
    simp

theorem mem_upperPairs {m i j : ℕ} : (i, j) ∈ upperPairs m ↔ i < j ∧ j < m := by
  simp only [upperPairs, List.mem_flatMap, List.mem_map, List.mem_range, List.mem_range'_1,
    Prod.mk.injEq]
  constructor
  · rintro ⟨a, ha, jj, hjj, h1, h2⟩
    subst h1
    subst h2
    omega
  · rintro ⟨hij, hjm⟩
    exact ⟨i, by omega, j, by omega, rfl, rfl⟩

theorem nodup_upperPairs (m : ℕ) : (upperPairs m).Nodup := by
  apply List.nodup_flatMap.mpr
  constructor
  · intro a _
    apply List.Nodup.map
    · intro u v huv
      simpa using huv
    · exact List.nodup_range' _ _
  · apply List.Pairwise.imp_of_mem ?_ (List.nodup_range _)
    intro a b _ _ hab
    simp only [Function.onFun, List.Disjoint]
    intro pr hpa hpb
    simp only [List.mem_map] at hpa hpb
    obtain ⟨u, _, hu⟩ := hpa
    obtain ⟨v, _, hv⟩ := hpb
    apply hab
    rw [← hu] at hv
    exact ((Prod.mk.injEq _ _ _ _).mp hv).1.symm

theorem list_range_map_sum {M : Type} [AddCommMonoid M] (n : ℕ) (f : ℕ → M) :
    ((List.range n).map f).sum = ∑ i ∈ Finset.range n, f i := by
  induction n with
  | zero => simp
  | succ k ih => rw [List.range_succ]; simp [ih, Finset.sum_range_succ]

theorem length_upperPairs (m : ℕ) : (upperPairs m).length = m * (m - 1) / 2 := by
  rw [upperPairs, List.flatMap_def, List.length_flatten, List.map_map]
  have h1 : (List.map (List.length ∘ fun ii =>
      (List.range' (ii + 1) (m - (ii + 1))).map (fun jj => (ii, jj))) (List.range (m - 1))) =
      (List.range (m - 1)).map (fun ii => m - (ii + 1)) := by
    apply List.map_congr_left
    intro a _
    simp
  rw [h1, list_range_map_sum]
  have h2 : ∑ i ∈ Finset.range (m - 1), (m - (i + 1)) =
      ∑ i ∈ Finset.range (m - 1), (i + 1) := by
    have := Finset.sum_range_reflect (fun i => i + 1) (m - 1)
    rw [← this]
    apply Finset.sum_congr rfl
    intro i hi
    simp only [Finset.mem_range] at hi
    omega
  rw [h2]
  have h3 : ∑ i ∈ Finset.range (m - 1), (i + 1) = ∑ i ∈ Finset.range m, i := by
    cases m with
    | zero => simp
    | succ k =>
      rw [Finset.sum_range_succ']
      simp
  rw [h3, Finset.sum_range_id]

theorem rowOfPair_lt {m i j : ℕ} (hij : i < j) (hj : j < m) :
    rowOfPair m i j < m * (m - 1) / 2 := by
  rw [rowOfPair, ← length_upperPairs]
  exact List.indexOf_lt_length.mpr (mem_upperPairs.mpr ⟨hij, hj⟩)

theorem get_upperPairs_rowOfPair {m i j : ℕ} (hij : i < j) (hj : j < m)
    (h : rowOfPair m i j < (upperPairs m).length) :
    (upperPairs m).get ⟨rowOfPair m i j, h⟩ = (i, j) := List.indexOf_get h

end Sepia

namespace Sepia

theorem diagList_nodup (m : ℕ) : ((List.range m).map (fun ii => (ii, ii))).Nodup := by
  apply List.Nodup.map _ (List.nodup_range m)
  intro u v huv
  simpa using huv

theorem diagList_no_offdiag {m i j : ℕ} (hij : i ≠ j) :
    ∀ ij ∈ (List.range m).map (fun ii => (ii, ii)), ¬(ij.1 = i ∧ ij.2 = j) := by
  intro pr hpr hc
  simp only [List.mem_map, List.mem_range] at hpr
  obtain ⟨a, _, ha⟩ := hpr
  rw [← ha] at hc
  exact hij (hc.1.symm.trans hc.2)

theorem upperPairs_no_entry {m a b : ℕ} (h : ¬(a < b ∧ b < m)) :
    ∀ ij ∈ upperPairs m, ¬(ij.1 = a ∧ ij.2 = b) := by
  intro pr hpr hc
  have hm := mem_upperPairs.mp (by rw [show pr = (a, b) from Prod.ext hc.1 hc.2] at hpr; exact hpr)
  exact h hm

theorem varf_apply_upper {m p : ℕ} {Js : List ℕ} {C2 : ℕ → ℕ → ℚ} {ef : List ℚ} {i j : ℕ}
    (hij : i < j) (hj : j < m) :
    varf m p Js C2 ef i j =
      varfOffBody Js (setxor1d (List.range p) Js) C2 ef (rowOfPair m i j) i j := by
  simp only [varf]
  rw [kfold_frame _ _ _ _ _ (diagList_no_offdiag (Nat.ne_of_lt hij))]
  simp only []
  have hmem : (i, j) ∈ upperPairs m := mem_upperPairs.mpr ⟨hij, hj⟩
  have hlen : rowOfPair m i j < (upperPairs m).length := List.indexOf_lt_length.mpr hmem
  have hkey := kfold_get (varfOffBody Js (setxor1d (List.range p) Js) C2 ef)
    (upperPairs m) (nodup_upperPairs m) 0 (fun _ _ => 0) (rowOfPair m i j) hlen
  rw [get_upperPairs_rowOfPair hij hj] at hkey
  simp only [Nat.zero_add] at hkey
  rw [hkey, kfold_frame _ _ _ _ _ (upperPairs_no_entry (by omega))]
  exact add_zero _

theorem varf_apply_diag {m p : ℕ} {Js : List ℕ} {C2 : ℕ → ℕ → ℚ} {ef : List ℚ} {i : ℕ}
    (hi : i < m) :
    varf m p Js C2 ef i i =
      varfDiagBody Js (setxor1d (List.range p) Js) C2 ef (m * (m - 1) / 2 + 1 + i) i := by
  simp only [varf]
  have hlen : i < ((List.range m).map (fun ii => (ii, ii))).length := by simpa using hi
  have hget : ((List.range m).map (fun ii => (ii, ii))).get ⟨i, hlen⟩ = (i, i) := by
    simp [List.get_eq_getElem]
  have hkey := kfold_get
    (fun kk ii _ => varfDiagBody Js (setxor1d (List.range p) Js) C2 ef (kk + 1) ii)
    ((List.range m).map (fun ii => (ii, ii))) (diagList_nodup m)
    (kfold (varfOffBody Js (setxor1d (List.range p) Js) C2 ef) (upperPairs m)
      (0, fun _ _ => 0)).1
    (fun a b =>
      (kfold (varfOffBody Js (setxor1d (List.range p) Js) C2 ef) (upperPairs m)
        (0, fun _ _ => 0)).2 a b +
      (kfold (varfOffBody Js (setxor1d (List.range p) Js) C2 ef) (upperPairs m)
        (0, fun _ _ => 0)).2 b a)
    i hlen
  rw [hget] at hkey
  simp only [] at hkey
  rw [hkey, kfold_fst, length_upperPairs]
  congr 1
  omega

theorem varf_out {m p : ℕ} {Js : List ℕ} {C2 : ℕ → ℕ → ℚ} {ef : List ℚ} {a b : ℕ}
    (h : m ≤ a ∨ m ≤ b) : varf m p Js C2 ef a b = 0 := by
  simp only [varf]
  by_cases hab : a = b
  · subst hab
    rw [kfold_frame]
    · simp only []
      rw [kfold_frame _ _ _ _ _ (upperPairs_no_entry (by omega))]
      simp
    · intro pr hpr hc
      simp only [List.mem_map, List.mem_range] at hpr
      obtain ⟨c, hcm, hcc⟩ := hpr
      rw [← hcc] at hc
      omega
  · rw [kfold_frame _ _ _ _ _ (diagList_no_offdiag hab)]
    simp only []
    rw [kfold_frame _ _ _ _ _ (upperPairs_no_entry (by omega)),
      kfold_frame _ _ _ _ _ (upperPairs_no_entry (by omega))]
    simp

theorem varf_symm (m p : ℕ) (Js : List ℕ) (C2 : ℕ → ℕ → ℚ) (ef : List ℚ) (a b : ℕ) :
    varf m p Js C2 ef a b = varf m p Js C2 ef b a := by
  by_cases hab : a = b
  · subst hab; rfl
  · simp only [varf]
    rw [kfold_frame _ _ _ _ _ (diagList_no_offdiag hab),
      kfold_frame _ _ _ _ _ (diagList_no_offdiag (Ne.symm hab))]
    simp only []
    exact add_comm _ _

theorem setxor1d_range (p : ℕ) (Js : List ℕ) (hJs : ∀ d ∈ Js, d < p) :
    setxor1d (List.range p) Js = (List.range p).filter (fun d => !decide (d ∈ Js)) := by
  unfold setxor1d
  have h1 : Js.filter (fun x => !decide (x ∈ List.range p)) = [] := by
    rw [List.filter_eq_nil_iff]
    intro a ha
    simp [hJs a ha]
  rw [h1, List.append_nil]
  have hnd : ((List.range p).filter (fun x => !decide (x ∈ Js))).Nodup :=
    (List.nodup_range p).filter _
  rw [hnd.dedup]
  exact List.Sorted.insertionSort_eq ((List.sorted_le_range p).filter _)

theorem setxor1d_single (p jj : ℕ) (h : jj < p) :
    setxor1d (List.range p) [jj] = (List.range p).filter (fun d => !decide (d = jj)) := by
  rw [setxor1d_range p [jj] (by simpa using h)]
  apply List.filter_congr
  intro a _
  simp

end Sepia

namespace Sepia

theorem calc2Rows_pairfold_fst {α : Type} (m : ℕ) (pv : ℕ → ℕ → α) :
    ((calc2Pairs m).foldl
      (fun (s : ℕ × (ℕ → Option α)) ij =>
        (s.1 + 1, fun r => if r = s.1 then some (pv ij.1 ij.2) else s.2 r))
      (0, fun _ => none)).1 = m * (m - 1) / 2 := by
  rw [rowfold_fst, calc2Pairs_eq_upperPairs, length_upperPairs]
  simp

theorem calc2Rows_pair {α : Type} (m : ℕ) (pv : ℕ → ℕ → α) (sv : ℕ → α) {i j : ℕ}
    (hij : i < j) (hj : j < m) :
    (calc2Rows m pv sv).2 (rowOfPair m i j) = some (pv i j) := by
  simp only [calc2Rows]
  rw [calc2Pairs_eq_upperPairs]
  rw [selffold_frame]
  · have hlen : rowOfPair m i j < (upperPairs m).length :=
      List.indexOf_lt_length.mpr (mem_upperPairs.mpr ⟨hij, hj⟩)
    have hkey := rowfold_get pv (upperPairs m) 0 (fun _ => none) (rowOfPair m i j) hlen
    rw [Nat.zero_add, get_upperPairs_rowOfPair hij hj] at hkey
    exact hkey
  · left
    rw [rowfold_fst, length_upperPairs]
    have : rowOfPair m i j < m * (m - 1) / 2 := rowOfPair_lt hij hj
    omega

theorem calc2Rows_self {α : Type} (m : ℕ) (pv : ℕ → ℕ → α) (sv : ℕ → α) {i : ℕ}
    (hi : i < m) :
    (calc2Rows m pv sv).2 (m * (m - 1) / 2 + 1 + i) = some (sv i) := by
  simp only [calc2Rows]
  have hlen : i < (List.range m).length := by simpa using hi
  have hfst : ((calc2Pairs m).foldl
      (fun (s : ℕ × (ℕ → Option α)) ij =>
        (s.1 + 1, fun r => if r = s.1 then some (pv ij.1 ij.2) else s.2 r))
      (0, fun _ => none)).1 = m * (m - 1) / 2 := calc2Rows_pairfold_fst m pv
  rw [← hfst]
  have hkey := selffold_get sv (List.range m)
    ((calc2Pairs m).foldl
      (fun (s : ℕ × (ℕ → Option α)) ij =>
        (s.1 + 1, fun r => if r = s.1 then some (pv ij.1 ij.2) else s.2 r))
      (0, fun _ => none)).1
    ((calc2Pairs m).foldl
      (fun (s : ℕ × (ℕ → Option α)) ij =>
        (s.1 + 1, fun r => if r = s.1 then some (pv ij.1 ij.2) else s.2 r))
      (0, fun _ => none)).2
    i hlen
  have hget : (List.range m).get ⟨i, hlen⟩ = i := by
    simp [List.get_eq_getElem]
  rw [hget] at hkey
  exact hkey

theorem calc2Rows_skip {α : Type} (m : ℕ) (pv : ℕ → ℕ → α) (sv : ℕ → α) :
    (calc2Rows m pv sv).2 (m * (m - 1) / 2) = none := by
  simp only [calc2Rows]
  rw [selffold_frame]
  · rw [rowfold_frame]
    right
    rw [Nat.zero_add, calc2Pairs_eq_upperPairs, length_upperPairs]
  · left
    rw [calc2Rows_pairfold_fst]

theorem calc2Rows_tail {α : Type} (m : ℕ) (pv : ℕ → ℕ → α) (sv : ℕ → α) {r : ℕ}
    (hr : m * (m - 1) / 2 + m + 1 ≤ r) :
    (calc2Rows m pv sv).2 r = none := by
  simp only [calc2Rows]
  rw [selffold_frame]
  · rw [rowfold_frame]
    right
    rw [Nat.zero_add, calc2Pairs_eq_upperPairs, length_upperPairs]
    omega
  · right
    rw [calc2Rows_pairfold_fst]
    simpa using hr

end Sepia

namespace Sepia

theorem varfOffBody_eval (p : ℕ) (Js : List ℕ) (C2 : ℕ → ℕ → ℚ) (ef : List ℚ)
    (hJs : ∀ d ∈ Js, d < p) (kk ii jj : ℕ) :
    varfOffBody Js (setxor1d (List.range p) Js) C2 ef kk ii jj =
      (if Js = [] then 1 else (Js.map (C2 kk)).prod) *
      (if (List.range p).filter (fun d => !decide (d ∈ Js)) = [] then 1
       else ef.getD ii 0 * ef.getD jj 0) := by
  rw [varfOffBody, setxor1d_range p Js hJs]
  by_cases h1 : Js = [] <;>
    by_cases h2 : (List.range p).filter (fun d => !decide (d ∈ Js)) = [] <;>
      simp [h1, h2, List.length_eq_zero] <;> ring

theorem varfDiagBody_eval (p : ℕ) (Js : List ℕ) (C2 : ℕ → ℕ → ℚ) (ef : List ℚ)
    (hJs : ∀ d ∈ Js, d < p) (kk ii : ℕ) :
    varfDiagBody Js (setxor1d (List.range p) Js) C2 ef kk ii =
      (if Js = [] then 1 else (Js.map (C2 kk)).prod) *
      (if (List.range p).filter (fun d => !decide (d ∈ Js)) = [] then 1
       else ef.getD ii 0 ^ 2) := by
  rw [varfDiagBody, setxor1d_range p Js hJs]
  by_cases h1 : Js = [] <;>
    by_cases h2 : (List.range p).filter (fun d => !decide (d ∈ Js)) = [] <;>
      simp [h1, h2, List.length_eq_zero]

/-- Claim C6: for valid `m`, `p`, index set `Js`, table `C2` and vector `ef`,
the off-diagonal entry `(i, j)` of the matrix returned by varf is the product
over the dimensions in `Js` of the calc2 row for the unordered pair `(i, j)`,
times `ef[i]*ef[j]` over the complementary dimensions, and the diagonal entry
`(i, i)` is the product over `Js` of the self-pair row times `ef[i]^2`, where
an empty factor set (`Js` empty, or complement empty as when `Js` is the full
dimension set and `ef` is `[]`) contributes the identity factor 1. -/
theorem varf_entry_formulas (m p : ℕ) (Js : List ℕ) (C2 : ℕ → ℕ → ℚ) (ef : List ℚ)
    (hJs : ∀ d ∈ Js, d < p) (i j : ℕ) (hi : i < m) (hj : j < m) (hne : i ≠ j) :
    varf m p Js C2 ef i j =
      (if Js = [] then 1 else (Js.map (C2 (rowOfPair m (min i j) (max i j)))).prod) *
      (if (List.range p).filter (fun d => !decide (d ∈ Js)) = [] then 1
       else ef.getD i 0 * ef.getD j 0) ∧
    varf m p Js C2 ef i i =
      (if Js = [] then 1 else (Js.map (C2 (selfRow m i))).prod) *
      (if (List.range p).filter (fun d => !decide (d ∈ Js)) = [] then 1
       else ef.getD i 0 ^ 2) := by
  constructor
  · rcases lt_or_gt_of_ne hne with hlt | hgt
    · rw [varf_apply_upper hlt hj, varfOffBody_eval p Js C2 ef hJs,
        Nat.min_eq_left (Nat.le_of_lt hlt), Nat.max_eq_right (Nat.le_of_lt hlt)]
    · rw [varf_symm, varf_apply_upper hgt hi, varfOffBody_eval p Js C2 ef hJs,
        Nat.min_eq_right (Nat.le_of_lt hgt), Nat.max_eq_left (Nat.le_of_lt hgt)]
      by_cases h2 : (List.range p).filter (fun d => !decide (d ∈ Js)) = [] <;>
        simp [h2] <;> ring
  · rw [varf_apply_diag hi, varfDiagBody_eval p Js C2 ef hJs]
    rfl

/-- Witness for C6 at a concrete input. -/
theorem varf_entry_formulas_witness :
    ((∀ d ∈ ([0] : List ℕ), d < 2) ∧ 0 < 2 ∧ 1 < 2 ∧ 0 ≠ 1) ∧
    (varf 2 2 [0] (fun kk _ => (kk : ℚ) + 1) [2, 3] 0 1 =
      (if ([0] : List ℕ) = [] then 1
       else (([0] : List ℕ).map ((fun kk _ => (kk : ℚ) + 1) (rowOfPair 2 (min 0 1) (max 0 1)))).prod) *
      (if (List.range 2).filter (fun d => !decide (d ∈ ([0] : List ℕ))) = [] then 1
       else ([(2 : ℚ), 3]).getD 0 0 * ([(2 : ℚ), 3]).getD 1 0) ∧
    varf 2 2 [0] (fun kk _ => (kk : ℚ) + 1) [2, 3] 0 0 =
      (if ([0] : List ℕ) = [] then 1
       else (([0] : List ℕ).map ((fun kk _ => (kk : ℚ) + 1) (selfRow 2 0))).prod) *
      (if (List.range 2).filter (fun d => !decide (d ∈ ([0] : List ℕ))) = [] then 1
       else ([(2 : ℚ), 3]).getD 0 0 ^ 2)) :=
  ⟨⟨by decide, by decide, by decide, by decide⟩,
    varf_entry_formulas 2 2 [0] (fun kk _ => (kk : ℚ) + 1) [2, 3] (by decide) 0 1
      (by decide) (by decide) (by decide)⟩

/-- Claim C7: for all inputs `m`, `p`, `Js`, `C2`, `ef`, the matrix returned
by varf is exactly symmetric: `Vf[i, j] = Vf[j, i]` for every pair `i`, `j`. -/
theorem varf_symmetric (m p : ℕ) (Js : List ℕ) (C2 : ℕ → ℕ → ℚ) (ef : List ℚ)
    (i j : ℕ) : varf m p Js C2 ef i j = varf m p Js C2 ef j i :=
  varf_symm m p Js C2 ef i j

/-- Claim C9: the rows of `C2` that varf reads are exactly the rows calc2
writes.  The unordered pairs `i < j < m` occupy rows `0 .. m(m-1)/2 - 1` in
the same lexicographic order in both functions (`rowOfPair`), the self-pair
rows occupy `m(m-1)/2 + 1 .. m(m-1)/2 + m` in both (`selfRow`); row
`m(m-1)/2` is skipped by the pre-increment and rows from `m(m-1)/2 + m + 1`
on (in particular the last `m - 1` rows of the allocated array) are never
written by calc2; and varf's entry `(i, j)` reads exactly the pair row
`rowOfPair m i j`, its entry `(i, i)` reads exactly `selfRow m i`, so the
matrix varf returns depends only on calc2-written rows. -/
theorem calc2_varf_row_alignment {α : Type} (m : ℕ) (pv : ℕ → ℕ → α) (sv : ℕ → α) :
    ((calc2Rows m pv sv).2 (m * (m - 1) / 2) = none)
    ∧ (∀ r, m * (m - 1) / 2 + m + 1 ≤ r → (calc2Rows m pv sv).2 r = none)
    ∧ (∀ i j, i < j → j < m →
        rowOfPair m i j < m * (m - 1) / 2 ∧
        (calc2Rows m pv sv).2 (rowOfPair m i j) = some (pv i j))
    ∧ (∀ i, i < m → (calc2Rows m pv sv).2 (selfRow m i) = some (sv i))
    ∧ (∀ (p : ℕ) (Js : List ℕ) (C2 : ℕ → ℕ → ℚ) (ef : List ℚ) (i j : ℕ), i < j → j < m →
        varf m p Js C2 ef i j =
          varfOffBody Js (setxor1d (List.range p) Js) C2 ef (rowOfPair m i j) i j)
    ∧ (∀ (p : ℕ) (Js : List ℕ) (C2 : ℕ → ℕ → ℚ) (ef : List ℚ) (i : ℕ), i < m →
        varf m p Js C2 ef i i =
          varfDiagBody Js (setxor1d (List.range p) Js) C2 ef (selfRow m i) i)
    ∧ (∀ (p : ℕ) (Js : List ℕ) (C2a C2b : ℕ → ℕ → ℚ) (ef : List ℚ),
        (∀ r, r < m * (m - 1) / 2 → C2a r = C2b r) →
        (∀ i, i < m → C2a (selfRow m i) = C2b (selfRow m i)) →
        ∀ a b, varf m p Js C2a ef a b = varf m p Js C2b ef a b) := by
  refine ⟨calc2Rows_skip m pv sv, fun r hr => calc2Rows_tail m pv sv hr,
    fun i j hij hj => ⟨rowOfPair_lt hij hj, calc2Rows_pair m pv sv hij hj⟩,
    fun i hi => calc2Rows_self m pv sv hi,
    fun p Js C2 ef i j hij hj => varf_apply_upper hij hj,
    fun p Js C2 ef i hi => varf_apply_diag hi,
    ?_⟩
  intro p Js C2a C2b ef h1 h2 a b
  simp only [selfRow] at h2
  by_cases ha : a < m
  · by_cases hb : b < m
    · rcases Nat.lt_trichotomy a b with hab | hab | hab
      · rw [varf_apply_upper hab hb, varf_apply_upper hab hb,
          varfOffBody, varfOffBody, h1 _ (rowOfPair_lt hab hb)]
      · subst hab
        rw [varf_apply_diag ha, varf_apply_diag ha, varfDiagBody, varfDiagBody, h2 a ha]
      · rw [varf_symm m p Js C2a ef a b, varf_symm m p Js C2b ef a b,
          varf_apply_upper hab ha, varf_apply_upper hab ha,
          varfOffBody, varfOffBody, h1 _ (rowOfPair_lt hab ha)]
    · rw [varf_out (Or.inr (Nat.le_of_not_lt hb)), varf_out (Or.inr (Nat.le_of_not_lt hb))]
  · rw [varf_out (Or.inl (Nat.le_of_not_lt ha)), varf_out (Or.inl (Nat.le_of_not_lt ha))]

/-- Witness for C9 at a concrete input: with `m = 3` the pair `(0, 2)` sits at
row `rowOfPair 3 0 2` below `3 = 3*(3-1)/2`, and calc2 wrote the pair value
there. -/
theorem calc2_varf_row_alignment_witness :
    (0 < 2 ∧ 2 < 3) ∧
    (rowOfPair 3 0 2 < 3 * (3 - 1) / 2 ∧
      (calc2Rows 3 (fun i j => (i, j)) (fun i => (i, i))).2 (rowOfPair 3 0 2) = some (0, 2)) :=
  ⟨⟨by decide, by decide⟩,
    (calc2_varf_row_alignment 3 (fun i j => (i, j)) (fun i => (i, i))).2.2.1 0 2
      (by decide) (by decide)⟩

end Sepia

namespace Sepia

/-- Claim C5: per draw, component_sens computes the total variance as
`vt = 1/lamUz - trace(Q @ varf(m, p, full set, C2, []))/lamUz^2 - e2`, and for
each input dimension `jj` the total-effect index as
`ste[jj] = 1 - (c1[jj]/lamUz - trace(Q @ varf(m, p, complement of jj, C2,
c3[:, jj]))/lamUz^2 - e2)/vt`. -/
theorem component_sens_vt_ste_formulas (m p : ℕ) (Q : ℕ → ℕ → ℚ) (c1 : ℕ → ℚ)
    (c3 : ℕ → ℕ → ℚ) (C2 : ℕ → ℕ → ℚ) (lamUz e2 vt : ℚ) (jj : ℕ) (hjj : jj < p) :
    component_sens_vt m p Q C2 lamUz e2 =
      1 / lamUz - traceM m (matMul m Q (varf m p (List.range p) C2 [])) / lamUz ^ 2 - e2 ∧
    component_sens_ste m p Q c1 c3 C2 lamUz e2 vt jj =
      1 - (c1 jj / lamUz -
        traceM m (matMul m Q (varf m p ((List.range p).filter (fun d => !decide (d = jj))) C2
          ((List.range m).map (fun i => c3 i jj)))) / lamUz ^ 2 - e2) / vt := by
  constructor
  · rfl
  · simp only [component_sens_ste, setxor1d_single p jj hjj, List.map_cons, List.map_nil,
      List.prod_cons, List.prod_nil, mul_one]

/-- Witness for C5 at a concrete input. -/
theorem component_sens_vt_ste_formulas_witness :
    0 < 2 ∧
    (component_sens_vt 1 2 exQ exC2 1 0 =
        1 / 1 - traceM 1 (matMul 1 exQ (varf 1 2 (List.range 2) exC2 [])) / 1 ^ 2 - 0 ∧
      component_sens_ste 1 2 exQ exc1 exc3 exC2 1 0 1 0 =
        1 - (exc1 0 / 1 -
          traceM 1 (matMul 1 exQ (varf 1 2 ((List.range 2).filter (fun d => !decide (d = 0)))
            exC2 ((List.range 1).map (fun i => exc3 i 0)))) / 1 ^ 2 - 0) / 1) :=
  ⟨by decide, component_sens_vt_ste_formulas 1 2 exQ exc1 exc3 exC2 1 0 1 0 (by decide)⟩

/-- Claim C2: at a concrete draw with a nonzero off-diagonal `Q`, the pair
numerator of line 336 (which uses `np.trace(Q * varf)` with the ELEMENTWISE
product) differs from the matrix-product rule of the main-effect numerators
(lines 311, 319, 327), which the claim asserts; `component_sens_sie_spec` is
the claim's formula.  The code therefore does not compute `sie` "by the same
rule as the main-effect numerators". -/
theorem component_sens_sie_elementwise_differs :
    component_sens_sie 2 2 exQ exc1 exc3 exC2 1 0 1 (0, 1) ≠
      component_sens_sie_spec 2 2 exQ exc1 exc3 exC2 1 0 1 (0, 1) := by
  have hElem : ∀ V : ℕ → ℕ → ℚ, traceElemMul 2 exQ V = 0 := by
    intro V
    simp [traceElemMul, exQ, Finset.sum_range_succ]
  have hV : ∀ ef : List ℚ, varf 2 2 [0, 1] exC2 ef 0 1 = 1 := by
    intro ef
    rw [varf_apply_upper (by decide) (by decide), varfOffBody,
      show setxor1d (List.range 2) [0, 1] = [] by decide]
    simp [exC2]
  have hV10 : ∀ ef : List ℚ, varf 2 2 [0, 1] exC2 ef 1 0 = 1 := by
    intro ef
    rw [varf_symm]
    exact hV ef
  have hMat : ∀ ef : List ℚ, traceM 2 (matMul 2 exQ (varf 2 2 [0, 1] exC2 ef)) = 2 := by
    intro ef
    simp [traceM, matMul, exQ, Finset.sum_range_succ, hV ef, hV10 ef]
    norm_num
  simp only [component_sens_sie, component_sens_sie_spec, hElem, hMat,
    show setxor1d (List.range 2) [(0, 1).1, (0, 1).2] = [] by decide,
    List.map_nil, List.prod_nil]
  intro h
  norm_num at h

end Sepia

namespace Sepia

theorem agg_draw_eval (pu : ℕ) (lam : ℕ → ℚ) (sa : ℕ → CompSa) (ii : ℕ) :
    agg_draw pu lam sa ii =
      ((fun k => ∑ jj ∈ Finset.range pu, lam jj * (sa jj).sme ii k * (sa jj).vt ii),
       (fun k => ∑ jj ∈ Finset.range pu, lam jj * (sa jj).ste ii k * (sa jj).vt ii),
       ∑ jj ∈ Finset.range pu, lam jj * (sa jj).vt ii) := by
  induction pu with
  | zero => simp [agg_draw]
  | succ n ih =>
    rw [agg_draw, List.range_succ, List.foldl_append, ← agg_draw, ih]
    apply Prod.ext
    · funext k
      simp [Finset.sum_range_succ]
    · apply Prod.ext
      · funext k
        simp [Finset.sum_range_succ]
      · simp [Finset.sum_range_succ]

theorem gram_diag (nell : ℕ) (K : ℕ → ℕ → ℚ) (jj : ℕ) :
    matMul nell (transposeM (transposeM K)) (transposeM K) jj jj =
      ∑ r ∈ Finset.range nell, K jj r * K jj r := by
  simp [matMul, transposeM]

/-- Claim C4: per draw `ii`, the aggregated main and total indices are the
per-component indices combined with weights `lam[jj] * vt_jj`, where `lam` is
the diagonal of the Gram matrix of the basis `K` (`lam[jj] = sum_r K[jj,r]^2`,
computed as `diag(ksmm.T @ ksmm)` for `ksmm = K.T`) and `vt_jj` is component
`jj`'s own total variance for that draw, normalised by
`vt0 = sum_jj lam[jj] * vt_jj`; the reported `smePm` and `stePm` are the
elementwise means over the `npvec` retained draws of these per-draw
aggregates, and the full per-draw, per-component decompositions are returned
untouched in `sa`. -/
theorem sensitivity_agg_weighted (pu npvec nell : ℕ) (K : ℕ → ℕ → ℚ) (sa : ℕ → CompSa) :
    (sensitivity_agg pu npvec nell K sa).sa = sa ∧
    (∀ ii, (sensitivity_agg pu npvec nell K sa).vt ii =
      ∑ jj ∈ Finset.range pu,
        (∑ r ∈ Finset.range nell, K jj r * K jj r) * (sa jj).vt ii) ∧
    (∀ ii k, (sensitivity_agg pu npvec nell K sa).sme ii k =
      (∑ jj ∈ Finset.range pu,
        (∑ r ∈ Finset.range nell, K jj r * K jj r) * (sa jj).sme ii k * (sa jj).vt ii) /
      (∑ jj ∈ Finset.range pu,
        (∑ r ∈ Finset.range nell, K jj r * K jj r) * (sa jj).vt ii)) ∧
    (∀ ii k, (sensitivity_agg pu npvec nell K sa).ste ii k =
      (∑ jj ∈ Finset.range pu,
        (∑ r ∈ Finset.range nell, K jj r * K jj r) * (sa jj).ste ii k * (sa jj).vt ii) /
      (∑ jj ∈ Finset.range pu,
        (∑ r ∈ Finset.range nell, K jj r * K jj r) * (sa jj).vt ii)) ∧
    (∀ k, (sensitivity_agg pu npvec nell K sa).smePm k =
      (∑ ii ∈ Finset.range npvec, (sensitivity_agg pu npvec nell K sa).sme ii k) / (npvec : ℚ)) ∧
    (∀ k, (sensitivity_agg pu npvec nell K sa).stePm k =
      (∑ ii ∈ Finset.range npvec, (sensitivity_agg pu npvec nell K sa).ste ii k) / (npvec : ℚ)) := by
  have hlam : ∀ jj, matMul nell (transposeM (transposeM K)) (transposeM K) jj jj =
      ∑ r ∈ Finset.range nell, K jj r * K jj r := gram_diag nell K
  refine ⟨rfl, ?_, ?_, ?_, ?_, ?_⟩
  · intro ii
    simp only [sensitivity_agg, agg_draw_eval, hlam]
  · intro ii k
    simp only [sensitivity_agg, agg_draw_eval, hlam]
  · intro ii k
    simp only [sensitivity_agg, agg_draw_eval, hlam]
  · intro k
    simp only [sensitivity_agg, agg_draw_eval, hlam, list_range_map_sum]
  · intro k
    simp only [sensitivity_agg, agg_draw_eval, hlam, list_range_map_sum]

end Sepia

namespace Sepia

/-- Claim C3: an `option` that is none of `'mean'`, `'median'`, `'samples'`
and not a dict of parameter samples makes the call fail with the
invalid-option error carrying the descriptive message that names the accepted
set; there is no silent default and no partial result (the dispatch returns
the error, not an `ok` value). -/
theorem resolveOption_invalid (s : String) (d : GPSamples)
    (h1 : s ≠ "mean") (h2 : s ≠ "median") (h3 : s ≠ "samples") :
    resolveOption (.str s) d = .error invalidOptionMsg ∧
    resolveOption .otherVal d = .error invalidOptionMsg ∧
    invalidOptionMsg =
      "invalid option (choose mean, median, or samples, or pass dict of values for betaU, lamUz, lamWs)" := by
  refine ⟨?_, rfl, rfl⟩
  simp [resolveOption, h1, h2, h3]

/-- Witness for C3 at the concrete invalid option string `'foo'`. -/
theorem resolveOption_invalid_witness :
    (("foo" : String) ≠ "mean" ∧ ("foo" : String) ≠ "median" ∧ ("foo" : String) ≠ "samples") ∧
    (resolveOption (.str "foo") ⟨[], [], []⟩ = .error invalidOptionMsg ∧
     resolveOption .otherVal ⟨[], [], []⟩ = .error invalidOptionMsg ∧
     invalidOptionMsg =
       "invalid option (choose mean, median, or samples, or pass dict of values for betaU, lamUz, lamWs)") :=
  ⟨⟨by decide, by decide, by decide⟩,
    resolveOption_invalid "foo" ⟨[], [], []⟩ (by decide) (by decide) (by decide)⟩

/-- Claim C1 (actual code behaviour): whenever a range matrix `rg` is
supplied, the very first use of the where-result, `ii0.shape[0]`, raises
AttributeError, because one-argument `np.where` returns a tuple of index
arrays and a tuple has no `shape` attribute.  The degenerate dimension is
therefore never dropped and no re-indexed result is ever produced: every call
of sensitivity with a supplied `rg` fails before any computation. -/
theorem sensitivity_activeDims_rg_raises (nv : ℕ) (rg : List (ℚ × ℚ)) :
    sensitivity_activeDims nv (some rg) = .error attrErrMsg := rfl

theorem except_bind_error {σ β : Type} (a : Except String σ) (k : σ → Except String β)
    (e : String) (h : a = .error e) : (a >>= k) = .error e := by
  rw [h]
  rfl

theorem foldlM_except_first_error {σ α : Type} (f : σ → α → Except String σ) (x : α)
    (xs : List α) (s : σ) (e : String) (hx : f s x = .error e) :
    (x :: xs).foldlM f s = .error e := by
  rw [List.foldlM_cons, hx]
  rfl

theorem foldlM_except_total {σ α : Type} (f : σ → α → Except String σ)
    (h : ∀ s x, ∃ s2, f s x = .ok s2) :
    ∀ (l : List α) (s : σ), ∃ s2, l.foldlM f s = .ok s2 := by
  intro l
  induction l with
  | nil => intro s; exact ⟨s, rfl⟩
  | cons x xs ih =>
    intro s
    obtain ⟨s2, hs2⟩ := h s x
    obtain ⟨s3, hs3⟩ := ih s2
    refine ⟨s3, ?_⟩
    rw [List.foldlM_cons, hs2]
    exact hs3

/-- Claim C10: calling sensitivity with `varlist = []` (rather than `None`)
fails rather than returning a result: component_sens includes the `'sie'` key
only when `varlist` is truthy, while the aggregator tests `varlist` against
`None` and then reads `sa[jj]['sie']` for every draw and component, hitting
the missing key (KeyError); with `varlist = None` the stage is skipped (no
interaction output), and with a non-empty `varlist` it succeeds. -/
theorem sensitivity_empty_varlist_keyerror
    (npvec pu : ℕ) (hnp : 1 ≤ npvec) (hpu : 1 ≤ pu)
    (lam : ℕ → ℚ) (vt : ℕ → ℚ) (vtc : ℕ → ℕ → ℚ)
    (smec stec siec : ℕ → ℕ → ℕ → ℚ) (jm jv : ℕ → ℕ → ℕ → ℕ → ℕ → ℚ) :
    (sensitivity_sieStage (some []) npvec pu lam
      (fun jj => component_sens_result (some []) (vtc jj) (smec jj) (stec jj) (siec jj)
        (jm jj) (jv jj)) vt = .error "KeyError: sie") ∧
    (sensitivity_sieStage none npvec pu lam
      (fun jj => component_sens_result none (vtc jj) (smec jj) (stec jj) (siec jj)
        (jm jj) (jv jj)) vt = .ok none) ∧
    (∀ L : List (ℕ × ℕ), L ≠ [] → ∃ v,
      sensitivity_sieStage (some L) npvec pu lam
        (fun jj => component_sens_result (some L) (vtc jj) (smec jj) (stec jj) (siec jj)
          (jm jj) (jv jj)) vt = .ok (some v)) := by
  refine ⟨?_, rfl, ?_⟩
  · obtain ⟨n, rfl⟩ : ∃ n, npvec = n + 1 := ⟨npvec - 1, by omega⟩
    obtain ⟨q, rfl⟩ : ∃ q, pu = q + 1 := ⟨pu - 1, by omega⟩
    show ((List.range (n + 1)).foldlM _ _ >>= fun sie => Except.ok (some sie)) = _
    apply except_bind_error
    rw [List.range_succ_eq_map n]
    apply foldlM_except_first_error
    show ((List.range (q + 1)).foldlM _ _ >>= _) = _
    apply except_bind_error
    rw [List.range_succ_eq_map q]
    apply foldlM_except_first_error
    rfl
  · intro L hL
    have ht : listTruthy (some L) = true := by
      cases L with
      | nil => exact absurd rfl hL
      | cons a as => rfl
    have hinner : ∀ (ii : ℕ) (r : ℕ → ℚ), ∃ row,
        (List.range pu).foldlM
          (fun (r : ℕ → ℚ) jj =>
            getKey (component_sens_result (some L) (vtc jj) (smec jj) (stec jj) (siec jj)
              (jm jj) (jv jj)).sie "sie" >>= fun sjj =>
              pure (fun k => r k + lam jj * sjj ii k *
                (component_sens_result (some L) (vtc jj) (smec jj) (stec jj) (siec jj)
                  (jm jj) (jv jj)).vt ii))
          r = .ok row := by
      intro ii r
      apply foldlM_except_total
      intro s jj
      refine ⟨fun k => s k + lam jj * siec jj ii k *
        (component_sens_result (some L) (vtc jj) (smec jj) (stec jj) (siec jj)
          (jm jj) (jv jj)).vt ii, ?_⟩
      have hsie : (component_sens_result (some L) (vtc jj) (smec jj) (stec jj) (siec jj)
          (jm jj) (jv jj)).sie = some (siec jj) := by
        simp [component_sens_result, ht]
      rw [hsie]
      rfl
    have houter : ∃ v, (List.range npvec).foldlM
        (fun (sie : ℕ → ℕ → ℚ) ii =>
          ((List.range pu).foldlM
            (fun (r : ℕ → ℚ) jj =>
              getKey (component_sens_result (some L) (vtc jj) (smec jj) (stec jj) (siec jj)
                (jm jj) (jv jj)).sie "sie" >>= fun sjj =>
                pure (fun k => r k + lam jj * sjj ii k *
                  (component_sens_result (some L) (vtc jj) (smec jj) (stec jj) (siec jj)
                    (jm jj) (jv jj)).vt ii))
            (fun _ => (0 : ℚ))) >>= fun row =>
            pure (fun a b => if a = ii then row b / vt ii else sie a b))
        (fun _ _ => (0 : ℚ)) = .ok v := by
      apply foldlM_except_total
      intro sie ii
      obtain ⟨row, hrow⟩ := hinner ii (fun _ => (0 : ℚ))
      refine ⟨fun a b => if a = ii then row b / vt ii else sie a b, ?_⟩
      rw [hrow]
      rfl
    obtain ⟨v, hv⟩ := houter
    refine ⟨v, ?_⟩
    show ((List.range npvec).foldlM _ _ >>= fun sie => Except.ok (some sie)) = _
    rw [hv]
    rfl

end Sepia

namespace Sepia

open Filter MeasureTheory

theorem normPdf_eq (t : ℝ) : normPdf t = Real.exp (-(1 / 2) * t ^ 2) / Real.sqrt (2 * Real.pi) := by
  rw [normPdf]
  ring_nf

theorem normPdf_continuous : Continuous normPdf := by
  unfold normPdf
  fun_prop

theorem normPdf_integrable : MeasureTheory.Integrable normPdf := by
  have h : normPdf = fun t => Real.exp (-(1 / 2) * t ^ 2) / Real.sqrt (2 * Real.pi) :=
    funext normPdf_eq
  rw [h]
  exact (integrable_exp_neg_mul_sq (by norm_num)).div_const _

theorem normPdf_total : (∫ t, normPdf t) = 1 := by
  have h : (∫ t, normPdf t) = (∫ t, Real.exp (-(1 / 2) * t ^ 2)) / Real.sqrt (2 * Real.pi) := by
    rw [← MeasureTheory.integral_div]
    exact MeasureTheory.integral_congr_ae (Filter.Eventually.of_forall fun t => normPdf_eq t)
  rw [h, integral_gaussian]
  rw [show Real.pi / (1 / 2) = 2 * Real.pi by ring]
  exact div_self (Real.sqrt_ne_zero'.mpr (by positivity))

theorem normPdf_even (t : ℝ) : normPdf (-t) = normPdf t := by
  simp [normPdf]

theorem normCdf_zero : normCdf 0 = 1 / 2 := by
  have hIic : MeasureTheory.IntegrableOn normPdf (Set.Iic 0) := normPdf_integrable.integrableOn
  have hIoi : MeasureTheory.IntegrableOn normPdf (Set.Ioi 0) := normPdf_integrable.integrableOn
  have hsplit := intervalIntegral.integral_Iic_add_Ioi hIic hIoi
  have hsym : (∫ t in Set.Iic 0, normPdf t) = ∫ t in Set.Ioi 0, normPdf t := by
    have h1 : (∫ t in Set.Iic 0, normPdf t) = ∫ t in Set.Iic 0, normPdf (-t) := by
      simp only [normPdf_even]
    rw [h1, integral_comp_neg_Iic, neg_zero]
  rw [normPdf_total] at hsplit
  rw [normCdf]
  linarith

theorem normCdf_sub_eq (x : ℝ) :
    normCdf x - normCdf 0 = ∫ t in (0 : ℝ)..x, normPdf t := by
  rw [normCdf, normCdf]
  exact intervalIntegral.integral_Iic_sub_Iic normPdf_integrable.integrableOn
    normPdf_integrable.integrableOn

theorem intF_hasDerivAt :
    HasDerivAt (fun s => ∫ t in (0 : ℝ)..s, normPdf t) (normPdf 0) 0 :=
  (normPdf_continuous.integral_hasStrictDerivAt 0 0).hasDerivAt

theorem intF_slope_tendsto :
    Filter.Tendsto (fun s : ℝ => (∫ t in (0 : ℝ)..s, normPdf t) / s)
      (nhdsWithin 0 (Set.compl {0})) (nhds (normPdf 0)) := by
  have h := hasDerivAt_iff_tendsto_slope.mp intF_hasDerivAt
  apply h.congr
  intro s
  rw [slope_def_field]
  simp [intervalIntegral.integral_same]

theorem exp_term_slope_tendsto (d : ℝ) :
    Filter.Tendsto (fun b : ℝ => (1 - Real.exp (-(b * d ^ 2))) / b)
      (nhdsWithin 0 (Set.compl {0})) (nhds (d ^ 2)) := by
  have hlin : HasDerivAt (fun b : ℝ => -(b * d ^ 2)) (-(d ^ 2)) 0 := by
    simpa using ((hasDerivAt_id (0 : ℝ)).mul_const (d ^ 2)).neg
  have hexp : HasDerivAt (fun b : ℝ => Real.exp (-(b * d ^ 2))) (-(d ^ 2)) 0 := by
    simpa using hlin.exp
  have hf : HasDerivAt (fun b : ℝ => 1 - Real.exp (-(b * d ^ 2))) (d ^ 2) 0 := by
    simpa using hexp.const_sub 1
  have h := hasDerivAt_iff_tendsto_slope.mp hf
  apply h.congr
  intro b
  rw [slope_def_field]
  simp

theorem sArg_tendsto (d : ℝ) (hd : 0 < d) :
    Filter.Tendsto (fun b : ℝ => Real.sqrt (2 * b) * d)
      (nhdsWithin 0 (Set.Ioi 0)) (nhdsWithin 0 (Set.compl {0})) := by
  rw [tendsto_nhdsWithin_iff]
  constructor
  · have hc : Continuous fun b : ℝ => Real.sqrt (2 * b) * d := by fun_prop
    have h0 : Filter.Tendsto (fun b : ℝ => Real.sqrt (2 * b) * d) (nhds 0) (nhds 0) := by
      simpa using hc.tendsto 0
    exact h0.mono_left nhdsWithin_le_nhds
  · filter_upwards [self_mem_nhdsWithin] with b hb
    have hb' : (0 : ℝ) < b := hb
    have hpos : 0 < Real.sqrt (2 * b) * d :=
      mul_pos (Real.sqrt_pos.mpr (by linarith)) hd
    exact Set.mem_compl_singleton_iff.mpr (ne_of_gt hpos)

theorem cdf_term_tendsto (d : ℝ) (hd : 0 < d) :
    Filter.Tendsto
      (fun b : ℝ => Real.sqrt (Real.pi / b) * d * (2 * normCdf (Real.sqrt (2 * b) * d) - 1))
      (nhdsWithin 0 (Set.Ioi 0)) (nhds (2 * d ^ 2)) := by
  have hcomp : Filter.Tendsto
      (fun b : ℝ =>
        (∫ t in (0 : ℝ)..(Real.sqrt (2 * b) * d), normPdf t) / (Real.sqrt (2 * b) * d))
      (nhdsWithin 0 (Set.Ioi 0)) (nhds (normPdf 0)) :=
    intF_slope_tendsto.comp (sArg_tendsto d hd)
  have hmul := hcomp.const_mul (2 * d ^ 2 * Real.sqrt (2 * Real.pi))
  have hval : 2 * d ^ 2 * Real.sqrt (2 * Real.pi) * normPdf 0 = 2 * d ^ 2 := by
    rw [normPdf]
    rw [show ((0 : ℝ) ^ 2) = 0 by ring]
    rw [show (-(0 : ℝ) / 2) = 0 by ring]
    rw [Real.exp_zero]
    have hne : Real.sqrt (2 * Real.pi) ≠ 0 := Real.sqrt_ne_zero'.mpr (by positivity)
    field_simp
  rw [hval] at hmul
  apply hmul.congr'
  filter_upwards [self_mem_nhdsWithin] with b hb
  have hb' : (0 : ℝ) < b := hb
  have hsne : Real.sqrt (2 * b) * d ≠ 0 :=
    ne_of_gt (mul_pos (Real.sqrt_pos.mpr (by linarith)) hd)
  have hbne : Real.sqrt (2 * b) ≠ 0 := Real.sqrt_ne_zero'.mpr (by linarith)
  have hcdf : 2 * normCdf (Real.sqrt (2 * b) * d) - 1 =
      2 * ∫ t in (0 : ℝ)..(Real.sqrt (2 * b) * d), normPdf t := by
    have h := normCdf_sub_eq (Real.sqrt (2 * b) * d)
    rw [normCdf_zero] at h
    linarith
  have hsqrt : Real.sqrt (Real.pi / b) = Real.sqrt (2 * Real.pi) / Real.sqrt (2 * b) := by
    rw [eq_div_iff hbne, ← Real.sqrt_mul (by positivity)]
    congr 1
    field_simp
    ring
  rw [hcdf, hsqrt]
  field_simp
  ring

theorem pdf_term_tendsto (d : ℝ) (hd : 0 < d) :
    Filter.Tendsto
      (fun b : ℝ => 1 / b * (1 - Real.sqrt (2 * Real.pi) * normPdf (Real.sqrt (2 * b) * d)))
      (nhdsWithin 0 (Set.Ioi 0)) (nhds (d ^ 2)) := by
  have hbase : Filter.Tendsto (fun b : ℝ => (1 - Real.exp (-(b * d ^ 2))) / b)
      (nhdsWithin 0 (Set.Ioi 0)) (nhds (d ^ 2)) :=
    (exp_term_slope_tendsto d).mono_left
      (nhdsWithin_mono 0 (fun x hx => Set.mem_compl_singleton_iff.mpr (ne_of_gt hx)))
  apply hbase.congr'
  filter_upwards [self_mem_nhdsWithin] with b hb
  have hb' : (0 : ℝ) < b := hb
  have hne : Real.sqrt (2 * Real.pi) ≠ 0 := Real.sqrt_ne_zero'.mpr (by positivity)
  have hpdf : Real.sqrt (2 * Real.pi) * normPdf (Real.sqrt (2 * b) * d) =
      Real.exp (-(b * d ^ 2)) := by
    rw [normPdf, mul_comm, div_mul_cancel₀ _ hne]
    congr 1
    rw [mul_pow, Real.sq_sqrt (by linarith : (0 : ℝ) ≤ 2 * b)]
    ring
  rw [hpdf]
  ring

/-- Claim C8: for every fixed `diff > 0`, `calc1(beta, diff)` tends to the
finite limit 1 as `beta` tends to 0 from the right. -/
theorem calc1_tendsto_one (d : ℝ) (hd : 0 < d) :
    Filter.Tendsto (fun beta => calc1 beta d) (nhdsWithin 0 (Set.Ioi 0)) (nhds 1) := by
  have hGH := ((cdf_term_tendsto d hd).sub (pdf_term_tendsto d hd)).div_const (d ^ 2)
  have hval : (2 * d ^ 2 - d ^ 2) / d ^ 2 = 1 := by
    field_simp
    ring
  rw [hval] at hGH
  apply hGH.congr
  intro b
  simp only [calc1]

end Sepia

namespace Sepia

/-- Witness for C8 at the concrete width `diff = 1`. -/
theorem calc1_tendsto_one_witness :
    (0 : ℝ) < 1 ∧
    Filter.Tendsto (fun beta => calc1 beta 1) (nhdsWithin 0 (Set.Ioi 0)) (nhds 1) :=
  ⟨by norm_num, calc1_tendsto_one 1 (by norm_num)⟩

end Sepia

namespace Sepia

/-- Witness for C10 with one draw and one basis component. -/
theorem sensitivity_empty_varlist_keyerror_witness :
    ((1 : ℕ) ≤ 1 ∧ (1 : ℕ) ≤ 1) ∧
    ((sensitivity_sieStage (some []) 1 1 (fun _ => 0)
        (fun _ => component_sens_result (some []) (fun _ => 0) (fun _ _ => 0) (fun _ _ => 0)
          (fun _ _ => 0) (fun _ _ _ _ => 0) (fun _ _ _ _ => 0)) (fun _ => 1)
        = .error "KeyError: sie") ∧
      (sensitivity_sieStage none 1 1 (fun _ => 0)
        (fun _ => component_sens_result none (fun _ => 0) (fun _ _ => 0) (fun _ _ => 0)
          (fun _ _ => 0) (fun _ _ _ _ => 0) (fun _ _ _ _ => 0)) (fun _ => 1) = .ok none) ∧
      (∀ L : List (ℕ × ℕ), L ≠ [] → ∃ v,
        sensitivity_sieStage (some L) 1 1 (fun _ => 0)
          (fun _ => component_sens_result (some L) (fun _ => 0) (fun _ _ => 0) (fun _ _ => 0)
            (fun _ _ => 0) (fun _ _ _ _ => 0) (fun _ _ _ _ => 0)) (fun _ => 1)
          = .ok (some v))) :=
  ⟨⟨le_refl 1, le_refl 1⟩,
    sensitivity_empty_varlist_keyerror 1 1 (le_refl 1) (le_refl 1) (fun _ => 0) (fun _ => 1)
      (fun _ _ => 0) (fun _ _ _ => 0) (fun _ _ _ => 0) (fun _ _ _ => 0)
      (fun _ _ _ _ _ => 0) (fun _ _ _ _ _ => 0)⟩

end Sepia
